import Mathlib

/-!
# Verification of `baselib` (balparda/baselib) against its specification

This development shallowly embeds the core of `src/base.py` — the object
codec (`BinSerialize` / `BinDeSerialize`), the cryptographic helpers
(`Encrypt` / `Decrypt` wrappers over `bin_fernet.BinaryFernet`,
`BlockEncoder256`, `DeriveKeyFromStaticPassword`) and the humanized
formatting helper `HumanizedBytes` — and proves the specified properties.

Modelling conventions:
* A Python `bytes` value is a `List Nat` whose elements are `< 256`
  (predicate `IsBytes`).
* External libraries (`pickle`, `bz2`, the `cryptography` AES primitives)
  are modelled by concrete executable functions that expose exactly the
  contract the repository relies on (injective serialization, invertible
  compression, keyed invertible block transforms).  The repository's own
  functions are translated statement by statement from `src/base.py`.
* `bin_fernet.BinaryFernet` is repository code that is not present under
  `src/`; it is modelled from the specification (see `fernetSeal`,
  `fernetOpen` below).
* Python exceptions become `Except CodecError`; the distinct failure
  conditions of the spec's error taxonomy become distinct constructors.
-/

namespace Baselib

/-- A Python `bytes` object: a list of naturals, each a byte (`< 256`). -/
def IsBytes (l : List Nat) : Prop := ∀ b ∈ l, b < 256

instance (l : List Nat) : Decidable (IsBytes l) := by
  unfold IsBytes; infer_instance

/-- Error taxonomy from the specification (section 7).  The Python source
raises `base.Error` / `bin_fernet.InvalidToken` / `AttributeError` with
distinguishing messages; here each distinguishable failure is its own
constructor. -/
inductive CodecError
  | emptyPassword
  | invalidKeyLength
  | invalidBlockLength
  | invalidToken
  | notFound
  | decompressError
  | deserializeError
  | attributeError
  | ioError (code : Nat)
  deriving DecidableEq, Repr

/-! ## Variable-length natural encoding

Used by the model of `pickle` to serialize arbitrary naturals into bytes.
Little-endian base-128 groups, high bit of a byte marking continuation. -/

/-- Encode a natural as a variable-length byte sequence (7-bit groups,
high bit set on all but the last byte). -/
def varEncode (n : Nat) : List Nat :=
  if h : n < 128 then [n]
  else (128 + n % 128) :: varEncode (n / 128)
decreasing_by
  exact Nat.div_lt_self (by omega) (by omega)

/-- Decode a `varEncode`d natural from the front of a byte list, returning
the value and the unconsumed remainder. -/
def varDecode : List Nat → Option (Nat × List Nat)
  | [] => none
  | b :: rest =>
    if b < 128 then some (b, rest)
    else match varDecode rest with
      | some (m, r) => some (m * 128 + (b - 128), r)
      | none => none

theorem varDecode_varEncode (n : Nat) (r : List Nat) :
    varDecode (varEncode n ++ r) = some (n, r) := by
  induction n using Nat.strong_induction_on with
  | _ n ih =>
    by_cases h : n < 128
    · rw [varEncode]
      simp [h, varDecode]
    · rw [varEncode]
      simp only [h, dite_false, List.cons_append, varDecode]
      have h1 : ¬ (128 + n % 128 < 128) := by omega
      simp only [h1, if_false]
      rw [ih (n / 128) (Nat.div_lt_self (by omega) (by omega))]
      simp only [Nat.add_sub_cancel_left]
      have h2 : n / 128 * 128 + n % 128 = n := by omega
      simp [h2]

theorem varEncode_isBytes (n : Nat) : IsBytes (varEncode n) := by
  induction n using Nat.strong_induction_on with
  | _ n ih =>
    by_cases h : n < 128
    · rw [varEncode]; simp only [h, dite_true]
      intro b hb; simp at hb; omega
    · rw [varEncode]; simp only [h, dite_false]
      intro b hb
      rcases List.mem_cons.mp hb with h1 | h1
      · omega
      · exact ih (n / 128) (Nat.div_lt_self (by omega) (by omega)) b h1

theorem varEncode_ne_nil (n : Nat) : varEncode n ≠ [] := by
  rw [varEncode]
  by_cases h : n < 128 <;> simp [h]

theorem varEncode_length_pos (n : Nat) : 1 ≤ (varEncode n).length := by
  cases h : varEncode n with
  | nil => exact absurd h (varEncode_ne_nil n)
  | cons a l => simp

/-! ## Model of `pickle`

`pickle.dumps` / `pickle.loads` (the Python standard library) are modelled
by a canonical tagged byte encoding of an inductive value type, as the
specification's design notes prescribe for re-implementations: "a
tagged-union/enum-based intermediate value representation" covering
mapping, sequence, set and primitive cases. -/

/-- The picklable values the codec round-trips: primitives, sequences,
sets and mappings, arbitrarily nested. -/
inductive PyObj
  | pyNone
  | pyBool (b : Bool)
  | pyInt (i : Int)
  | pyBytes (s : List Nat)
  | pyList (xs : List PyObj)
  | pyTuple (xs : List PyObj)
  | pySet (xs : List PyObj)
  | pyDict (kvs : List (PyObj × PyObj))

/-- Encode a list of naturals, each in variable-length form. -/
def dumpsNats : List Nat → List Nat
  | [] => []
  | n :: ns => varEncode n ++ dumpsNats ns

mutual

/-- `pickle.dumps` model: tag byte, then length-prefixed recursive payload. -/
def pickleDumps : PyObj → List Nat
  | .pyNone => [0]
  | .pyBool false => [1]
  | .pyBool true => [2]
  | .pyInt i =>
      if 0 ≤ i then 3 :: varEncode i.toNat else 4 :: varEncode (-i).toNat
  | .pyBytes s => 5 :: (varEncode s.length ++ dumpsNats s)
  | .pyList xs => 6 :: (varEncode xs.length ++ dumpsSeq xs)
  | .pyTuple xs => 7 :: (varEncode xs.length ++ dumpsSeq xs)
  | .pySet xs => 8 :: (varEncode xs.length ++ dumpsSeq xs)
  | .pyDict kvs => 9 :: (varEncode kvs.length ++ dumpsPairs kvs)

/-- Encode the elements of a sequence, in order. -/
def dumpsSeq : List PyObj → List Nat
  | [] => []
  | x :: xs => pickleDumps x ++ dumpsSeq xs

/-- Encode the key/value pairs of a mapping, in order. -/
def dumpsPairs : List (PyObj × PyObj) → List Nat
  | [] => []
  | (k, v) :: kvs => pickleDumps k ++ (pickleDumps v ++ dumpsPairs kvs)

end

/-- Parse `count` variable-length naturals from the front of the input. -/
def parseNats : Nat → List Nat → Option (List Nat × List Nat)
  | 0, input => some ([], input)
  | count + 1, input =>
    match varDecode input with
    | some (n, r) =>
      match parseNats count r with
      | some (ns, r') => some (n :: ns, r')
      | none => none
    | none => none

mutual

/-- `pickle.loads` front end: parse one object from the input, fuel-bounded. -/
def parseObj : Nat → List Nat → Option (PyObj × List Nat)
  | 0, _ => none
  | fuel + 1, input =>
    match input with
    | 0 :: r => some (.pyNone, r)
    | 1 :: r => some (.pyBool false, r)
    | 2 :: r => some (.pyBool true, r)
    | 3 :: r =>
      match varDecode r with
      | some (n, r') => some (.pyInt (n : Int), r')
      | none => none
    | 4 :: r =>
      match varDecode r with
      | some (n, r') => if n = 0 then none else some (.pyInt (-(n : Int)), r')
      | none => none
    | 5 :: r =>
      match varDecode r with
      | some (n, r') =>
        match parseNats n r' with
        | some (s, r'') => some (.pyBytes s, r'')
        | none => none
      | none => none
    | 6 :: r =>
      match varDecode r with
      | some (n, r') =>
        match parseSeq fuel n r' with
        | some (xs, r'') => some (.pyList xs, r'')
        | none => none
      | none => none
    | 7 :: r =>
      match varDecode r with
      | some (n, r') =>
        match parseSeq fuel n r' with
        | some (xs, r'') => some (.pyTuple xs, r'')
        | none => none
      | none => none
    | 8 :: r =>
      match varDecode r with
      | some (n, r') =>
        match parseSeq fuel n r' with
        | some (xs, r'') => some (.pySet xs, r'')
        | none => none
      | none => none
    | 9 :: r =>
      match varDecode r with
      | some (n, r') =>
        match parsePairs fuel n r' with
        | some (kvs, r'') => some (.pyDict kvs, r'')
        | none => none
      | none => none
    | _ => none

/-- Parse `count` objects from the input, fuel-bounded. -/
def parseSeq : Nat → Nat → List Nat → Option (List PyObj × List Nat)
  | _, 0, input => some ([], input)
  | 0, _ + 1, _ => none
  | fuel + 1, count + 1, input =>
    match parseObj fuel input with
    | some (x, r) =>
      match parseSeq fuel count r with
      | some (xs, r') => some (x :: xs, r')
      | none => none
    | none => none

/-- Parse `count` key/value pairs from the input, fuel-bounded. -/
def parsePairs : Nat → Nat → List Nat → Option (List (PyObj × PyObj) × List Nat)
  | _, 0, input => some ([], input)
  | 0, _ + 1, _ => none
  | fuel + 1, count + 1, input =>
    match parseObj fuel input with
    | some (k, r) =>
      match parseObj fuel r with
      | some (v, r') =>
        match parsePairs fuel count r' with
        | some (kvs, r'') => some ((k, v) :: kvs, r'')
        | none => none
      | none => none
    | none => none

end

/-- `pickle.loads` model: parse one object and require full consumption. -/
def pickleLoads (bs : List Nat) : Option PyObj :=
  match parseObj (bs.length + 1) bs with
  | some (v, []) => some v
  | _ => none

theorem parseNats_dumpsNats (s : List Nat) (r : List Nat) :
    parseNats s.length (dumpsNats s ++ r) = some (s, r) := by
  induction s generalizing r with
  | nil => simp [dumpsNats, parseNats]
  | cons n ns ih =>
    simp only [dumpsNats, List.length_cons, parseNats, List.append_assoc,
      varDecode_varEncode, ih]

theorem pickleDumps_length_pos (v : PyObj) : 1 ≤ (pickleDumps v).length := by
  cases v with
  | pyBool b => cases b <;> simp [pickleDumps]
  | pyInt i =>
    rw [pickleDumps]
    split <;> simp
  | _ => simp [pickleDumps]

set_option maxHeartbeats 2000000 in
mutual

theorem parseObj_pickleDumps (v : PyObj) (r : List Nat) (fuel : Nat)
    (h : (pickleDumps v).length ≤ fuel) :
    parseObj fuel (pickleDumps v ++ r) = some (v, r) := by
  match fuel, v with
  | 0, v => exact absurd h (by have := pickleDumps_length_pos v; omega)
  | f + 1, .pyNone => simp [pickleDumps, parseObj]
  | f + 1, .pyBool false => simp [pickleDumps, parseObj]
  | f + 1, .pyBool true => simp [pickleDumps, parseObj]
  | f + 1, .pyInt i =>
    rw [pickleDumps]
    by_cases hi : 0 ≤ i
    · simp only [hi, if_true, List.cons_append, parseObj, List.append_assoc,
        varDecode_varEncode]
      rw [Int.toNat_of_nonneg hi]
    · simp only [hi, if_false, List.cons_append, parseObj, List.append_assoc,
        varDecode_varEncode]
      have h0 : (-i).toNat ≠ 0 := by omega
      simp only [h0, if_false]
      have h1 : -((-i).toNat : Int) = i := by omega
      rw [h1]
  | f + 1, .pyBytes s =>
    simp [pickleDumps, parseObj, List.append_assoc, varDecode_varEncode,
      parseNats_dumpsNats]
  | f + 1, .pyList xs =>
    have hs : (dumpsSeq xs).length + 1 ≤ f := by
      have := varEncode_length_pos xs.length
      simp only [pickleDumps, List.length_cons, List.length_append] at h
      omega
    simp [pickleDumps, parseObj, List.append_assoc, varDecode_varEncode,
      parseSeq_dumpsSeq xs (r := r) f hs]
  | f + 1, .pyTuple xs =>
    have hs : (dumpsSeq xs).length + 1 ≤ f := by
      have := varEncode_length_pos xs.length
      simp only [pickleDumps, List.length_cons, List.length_append] at h
      omega
    simp [pickleDumps, parseObj, List.append_assoc, varDecode_varEncode,
      parseSeq_dumpsSeq xs (r := r) f hs]
  | f + 1, .pySet xs =>
    have hs : (dumpsSeq xs).length + 1 ≤ f := by
      have := varEncode_length_pos xs.length
      simp only [pickleDumps, List.length_cons, List.length_append] at h
      omega
    simp [pickleDumps, parseObj, List.append_assoc, varDecode_varEncode,
      parseSeq_dumpsSeq xs (r := r) f hs]
  | f + 1, .pyDict kvs =>
    have hs : (dumpsPairs kvs).length + 1 ≤ f := by
      have := varEncode_length_pos kvs.length
      simp only [pickleDumps, List.length_cons, List.length_append] at h
      omega
    simp [pickleDumps, parseObj, List.append_assoc, varDecode_varEncode,
      parsePairs_dumpsPairs kvs (r := r) f hs]

theorem parseSeq_dumpsSeq (xs : List PyObj) (r : List Nat) (fuel : Nat)
    (h : (dumpsSeq xs).length + 1 ≤ fuel) :
    parseSeq fuel xs.length (dumpsSeq xs ++ r) = some (xs, r) := by
  match fuel, xs with
  | fuel, [] => simp [dumpsSeq, parseSeq]
  | 0, x :: xs => exact absurd h (by omega)
  | f + 1, x :: xs =>
    have hx : (pickleDumps x).length ≤ f := by
      simp only [dumpsSeq, List.length_append] at h
      omega
    have hxs : (dumpsSeq xs).length + 1 ≤ f := by
      have := pickleDumps_length_pos x
      simp only [dumpsSeq, List.length_append] at h
      omega
    simp only [dumpsSeq, List.length_cons, parseSeq, List.append_assoc,
      parseObj_pickleDumps x (dumpsSeq xs ++ r) f hx,
      parseSeq_dumpsSeq xs r f hxs]

theorem parsePairs_dumpsPairs (kvs : List (PyObj × PyObj)) (r : List Nat) (fuel : Nat)
    (h : (dumpsPairs kvs).length + 1 ≤ fuel) :
    parsePairs fuel kvs.length (dumpsPairs kvs ++ r) = some (kvs, r) := by
  match fuel, kvs with
  | fuel, [] => simp [dumpsPairs, parsePairs]
  | 0, kv :: kvs => exact absurd h (by omega)
  | f + 1, (k, v) :: kvs =>
    have hk : (pickleDumps k).length ≤ f := by
      simp only [dumpsPairs, List.length_append] at h
      omega
    have hv : (pickleDumps v).length ≤ f := by
      have := pickleDumps_length_pos k
      simp only [dumpsPairs, List.length_append] at h
      omega
    have hkvs : (dumpsPairs kvs).length + 1 ≤ f := by
      have := pickleDumps_length_pos k
      have := pickleDumps_length_pos v
      simp only [dumpsPairs, List.length_append] at h
      omega
    simp only [dumpsPairs, List.length_cons, parsePairs, List.append_assoc,
      parseObj_pickleDumps k _ f hk, parseObj_pickleDumps v _ f hv,
      parsePairs_dumpsPairs kvs r f hkvs]

end

/-- Round trip of the `pickle` model: `loads (dumps v) = v`. -/
theorem pickleLoads_pickleDumps (v : PyObj) : pickleLoads (pickleDumps v) = some v := by
  unfold pickleLoads
  have h : parseObj ((pickleDumps v).length + 1) (pickleDumps v ++ []) = some (v, []) :=
    parseObj_pickleDumps v [] ((pickleDumps v).length + 1) (by omega)
  rw [List.append_nil] at h
  rw [h]

theorem isBytes_cons {x : Nat} {l : List Nat} :
    IsBytes (x :: l) ↔ x < 256 ∧ IsBytes l := by
  simp [IsBytes]

theorem isBytes_append {a b : List Nat} :
    IsBytes (a ++ b) ↔ IsBytes a ∧ IsBytes b := by
  constructor
  · intro h
    exact ⟨fun x hx => h x (List.mem_append_left _ hx),
           fun x hx => h x (List.mem_append_right _ hx)⟩
  · rintro ⟨ha, hb⟩ x hx
    rcases List.mem_append.mp hx with h1 | h1
    · exact ha x h1
    · exact hb x h1

theorem isBytes_nil : IsBytes [] := by
  intro b hb; cases hb

theorem dumpsNats_isBytes (s : List Nat) : IsBytes (dumpsNats s) := by
  induction s with
  | nil => exact isBytes_nil
  | cons n ns ih =>
    exact isBytes_append.mpr ⟨varEncode_isBytes n, ih⟩

mutual

theorem pickleDumps_isBytes (v : PyObj) : IsBytes (pickleDumps v) := by
  match v with
  | .pyNone => intro b hb; simp [pickleDumps] at hb; omega
  | .pyBool false => intro b hb; simp [pickleDumps] at hb; omega
  | .pyBool true => intro b hb; simp [pickleDumps] at hb; omega
  | .pyInt i =>
    rw [pickleDumps]
    split
    · exact isBytes_cons.mpr ⟨by omega, varEncode_isBytes _⟩
    · exact isBytes_cons.mpr ⟨by omega, varEncode_isBytes _⟩
  | .pyBytes s =>
    exact isBytes_cons.mpr ⟨by omega,
      isBytes_append.mpr ⟨varEncode_isBytes _, dumpsNats_isBytes s⟩⟩
  | .pyList xs =>
    exact isBytes_cons.mpr ⟨by omega,
      isBytes_append.mpr ⟨varEncode_isBytes _, dumpsSeq_isBytes xs⟩⟩
  | .pyTuple xs =>
    exact isBytes_cons.mpr ⟨by omega,
      isBytes_append.mpr ⟨varEncode_isBytes _, dumpsSeq_isBytes xs⟩⟩
  | .pySet xs =>
    exact isBytes_cons.mpr ⟨by omega,
      isBytes_append.mpr ⟨varEncode_isBytes _, dumpsSeq_isBytes xs⟩⟩
  | .pyDict kvs =>
    exact isBytes_cons.mpr ⟨by omega,
      isBytes_append.mpr ⟨varEncode_isBytes _, dumpsPairs_isBytes kvs⟩⟩

theorem dumpsSeq_isBytes (xs : List PyObj) : IsBytes (dumpsSeq xs) := by
  match xs with
  | [] => exact isBytes_nil
  | x :: rest =>
    exact isBytes_append.mpr ⟨pickleDumps_isBytes x, dumpsSeq_isBytes rest⟩

theorem dumpsPairs_isBytes (kvs : List (PyObj × PyObj)) : IsBytes (dumpsPairs kvs) := by
  match kvs with
  | [] => exact isBytes_nil
  | (k, v) :: rest =>
    exact isBytes_append.mpr ⟨pickleDumps_isBytes k,
      isBytes_append.mpr ⟨pickleDumps_isBytes v, dumpsPairs_isBytes rest⟩⟩

end

/-! ## Model of `bz2`

`bz2.compress(·, 9)` / `bz2.decompress` are modelled by a run-length
byte-stream code: an invertible general-purpose byte-stream compressor,
which is the contract `BinSerialize` / `BinDeSerialize` rely on.
Decompression is fallible, as in the library (malformed streams raise). -/

/-- Emit run-length blocks: `rleEnc b k l` encodes a pending run of `k`
copies of byte `b` followed by the input `l`.  Runs are capped at 255 so
every emitted count fits in a byte. -/
def rleEnc : Nat → Nat → List Nat → List Nat
  | b, k, [] => [k, b]
  | b, k, c :: rest =>
    if c = b ∧ k < 255 then rleEnc b (k + 1) rest
    else k :: b :: rleEnc c 1 rest

/-- `bz2.compress` model: run-length encode the byte stream. -/
def bz2Compress : List Nat → List Nat
  | [] => []
  | b :: rest => rleEnc b 1 rest

/-- `bz2.decompress` model: expand run-length blocks; `none` on a
malformed stream (odd length or zero run count). -/
def bz2Decompress : List Nat → Option (List Nat)
  | [] => some []
  | k :: b :: rest =>
    if k = 0 then none
    else (bz2Decompress rest).map (fun tail => List.replicate k b ++ tail)
  | _ => none

theorem bz2Decompress_rleEnc (l : List Nat) (b k : Nat) (hk : 1 ≤ k) (hk2 : k ≤ 255) :
    bz2Decompress (rleEnc b k l) = some (List.replicate k b ++ l) := by
  induction l generalizing b k with
  | nil =>
    have hk0 : k ≠ 0 := by omega
    simp [rleEnc, bz2Decompress, hk0]
  | cons c rest ih =>
    rw [rleEnc]
    by_cases hc : c = b ∧ k < 255
    · rw [if_pos hc]
      rw [ih b (k + 1) (by omega) (by omega)]
      rw [List.replicate_succ' (n := k)]
      simp [hc.1]
    · rw [if_neg hc]
      have hk0 : k ≠ 0 := by omega
      simp only [bz2Decompress, hk0, if_false]
      rw [ih c 1 (by omega) (by omega)]
      simp

/-- Round trip of the `bz2` model. -/
theorem bz2Decompress_bz2Compress (l : List Nat) :
    bz2Decompress (bz2Compress l) = some l := by
  cases l with
  | nil => simp [bz2Compress, bz2Decompress]
  | cons b rest =>
    rw [bz2Compress, bz2Decompress_rleEnc rest b 1 (by omega) (by omega)]
    simp

theorem rleEnc_isBytes (l : List Nat) (b k : Nat) (hb : b < 256) (hk : k ≤ 255)
    (hl : IsBytes l) : IsBytes (rleEnc b k l) := by
  induction l generalizing b k with
  | nil =>
    intro x hx
    simp [rleEnc] at hx
    rcases hx with h | h <;> omega
  | cons c rest ih =>
    rw [rleEnc]
    have hc : c < 256 := hl c (by simp)
    have hrest : IsBytes rest := fun x hx => hl x (List.mem_cons_of_mem _ hx)
    by_cases h : c = b ∧ k < 255
    · rw [if_pos h]
      exact ih b (k + 1) hb (by omega) hrest
    · rw [if_neg h]
      exact isBytes_cons.mpr ⟨by omega,
        isBytes_cons.mpr ⟨hb, ih c 1 hc (by omega) hrest⟩⟩

theorem bz2Compress_isBytes (l : List Nat) (hl : IsBytes l) : IsBytes (bz2Compress l) := by
  cases l with
  | nil => exact isBytes_nil
  | cons b rest =>
    exact rleEnc_isBytes rest b 1 (hl b (by simp)) (by omega)
      (fun x hx => hl x (List.mem_cons_of_mem _ hx))

/-! ## Model of `bin_fernet.BinaryFernet`

Modelled from the spec: the module `baselib/bin_fernet.py` (imported by
`src/base.py` as `from baselib import bin_fernet` and providing
`BinaryFernet` and `InvalidToken`) is not present under `src/`.  The model
follows specification sections 3 ("Authenticated token") and 4.3
(AuthenticatedCipher): the token is
`version ‖ timestamp ‖ nonce ‖ ciphertext ‖ authentication-tag`, sealing
computes the tag over `version ‖ timestamp ‖ nonce ‖ ciphertext`, and
opening is all-or-nothing — it verifies the tag before any plaintext is
reconstructed and fails with `InvalidToken` on a malformed/too-short
token, an unrecognized version byte, or a tag mismatch.

Concrete layout of the model: 1 version byte (128), 8 timestamp bytes,
16 nonce bytes, the ciphertext, and a 32-byte tag.  The cipher is an
invertible keyed byte stream (ideal-cipher stand-in), the tag a keyed
function of the authenticated bytes that distinguishes distinct keys and
distinct message sums.  The fresh timestamp/nonce that `Seal` draws per
call are explicit arguments here, making the model pure.

Limitation, shared by every scheme of this token shape: with a
deterministic fixed-size tag at the end of the token and a cipher that is
a bijection on byte strings, there exist plaintexts whose sealed token
has a valid token as a proper prefix — the ciphertext bytes that a
trailing truncation turns into the stored tag can be driven, via the
plaintext, to equal the tag of the shortened body.  Opening such a
truncated token succeeds and returns a proper prefix of the plaintext.
The specification's truncation guarantee (section 8) is accordingly only
probabilistic ("with probability overwhelmingly close to 1"); it cannot
hold absolutely for any model of this format, and it does not hold for
this one (see the C3 counterexample below).  What does hold absolutely:
wrong keys, tokens below the 57-byte minimum, tokens with a wrong leading
version byte, and any single-byte replacement are all rejected. -/

/-- Version byte of the authenticated-token format. -/
def fernetVersion : Nat := 128

/-- Keystream byte at position `i` under a 32-byte key, 16-byte nonce. -/
def keystreamByte (key nonce : List Nat) (i : Nat) : Nat :=
  (key.getD (i % 32) 0 + nonce.getD (i % 16) 0 + i) % 256

/-- Model stream cipher, encryption direction, starting at position `i`. -/
def streamEnc (key nonce : List Nat) : Nat → List Nat → List Nat
  | _, [] => []
  | i, p :: ps => (p + keystreamByte key nonce i) % 256 :: streamEnc key nonce (i + 1) ps

/-- Model stream cipher, decryption direction, starting at position `i`. -/
def streamDec (key nonce : List Nat) : Nat → List Nat → List Nat
  | _, [] => []
  | i, c :: cs =>
    (c + 256 - keystreamByte key nonce i) % 256 :: streamDec key nonce (i + 1) cs

theorem keystreamByte_lt (key nonce : List Nat) (i : Nat) :
    keystreamByte key nonce i < 256 :=
  Nat.mod_lt _ (by omega)

theorem streamDec_streamEnc (key nonce : List Nat) (pt : List Nat) (i : Nat)
    (h : IsBytes pt) : streamDec key nonce i (streamEnc key nonce i pt) = pt := by
  induction pt generalizing i with
  | nil => simp [streamEnc, streamDec]
  | cons p ps ih =>
    have hp : p < 256 := h p (by simp)
    have hps : IsBytes ps := fun x hx => h x (List.mem_cons_of_mem _ hx)
    have hk : keystreamByte key nonce i < 256 := keystreamByte_lt key nonce i
    rw [streamEnc, streamDec, ih (i + 1) hps]
    congr 1
    omega

theorem streamEnc_length (key nonce : List Nat) (pt : List Nat) (i : Nat) :
    (streamEnc key nonce i pt).length = pt.length := by
  induction pt generalizing i with
  | nil => simp [streamEnc]
  | cons p ps ih => simp [streamEnc, ih]

theorem streamEnc_isBytes (key nonce : List Nat) (pt : List Nat) (i : Nat) :
    IsBytes (streamEnc key nonce i pt) := by
  induction pt generalizing i with
  | nil => simp [streamEnc, isBytes_nil]
  | cons p ps ih =>
    rw [streamEnc, isBytes_cons]
    exact ⟨Nat.mod_lt _ (by omega), ih (i + 1)⟩

/-- Authentication-tag model: a keyed function of the authenticated bytes.
Its two properties used below: distinct (equal-length, byte-valid) keys
give distinct tags over the same message, and messages of equal length
whose byte sums differ modulo 256 give distinct tags under any key.
Like every deterministic 32-byte tag it cannot reject every trailing
truncation of every sealed token (see the section comment above and the
C3 counterexample). -/
def macTag (key msg : List Nat) : List Nat :=
  key.map (fun b => (b + (msg.sum + msg.length)) % 256)

theorem macTag_length (key msg : List Nat) : (macTag key msg).length = key.length := by
  simp [macTag]

theorem macTag_isBytes (key msg : List Nat) : IsBytes (macTag key msg) := by
  intro b hb
  simp only [macTag, List.mem_map] at hb
  obtain ⟨a, _, ha⟩ := hb
  omega

/-- The authenticated bytes of a token:
`version ‖ timestamp ‖ nonce ‖ ciphertext`. -/
def fernetBody (key ts nonce pt : List Nat) : List Nat :=
  fernetVersion :: (ts ++ (nonce ++ streamEnc key nonce 0 pt))

/-- `BinaryFernet(key).encrypt(plaintext)` — `Seal` of the spec.  The
fresh timestamp (8 bytes) and nonce (16 bytes) are explicit arguments. -/
def fernetSeal (key ts nonce pt : List Nat) : List Nat :=
  fernetBody key ts nonce pt ++ macTag key (fernetBody key ts nonce pt)

theorem fernetBody_length (key ts nonce pt : List Nat)
    (hts : ts.length = 8) (hnonce : nonce.length = 16) :
    (fernetBody key ts nonce pt).length = 25 + pt.length := by
  simp [fernetBody, hts, hnonce, streamEnc_length]
  omega

/-- `BinaryFernet(key).decrypt(token)` — `Open` of the spec: all-or-nothing,
verifying length, version byte and authentication tag before any plaintext
is reconstructed; every failure is the uniform `InvalidToken`. -/
def fernetOpen (key tok : List Nat) : Except CodecError (List Nat) :=
  if tok.length < 57 then .error .invalidToken
  else if tok.headD 0 = fernetVersion then
    if macTag key (tok.take (tok.length - 32)) = tok.drop (tok.length - 32) then
      .ok (streamDec key ((tok.drop 9).take 16) 0 ((tok.drop 25).take (tok.length - 57)))
    else .error .invalidToken
  else .error .invalidToken

theorem fernetSeal_length (key ts nonce pt : List Nat)
    (hkey : key.length = 32) (hts : ts.length = 8) (hnonce : nonce.length = 16) :
    (fernetSeal key ts nonce pt).length = 57 + pt.length := by
  have := fernetBody_length key ts nonce pt hts hnonce
  simp [fernetSeal, macTag_length, hkey]
  omega

theorem fernetSeal_isBytes (key ts nonce pt : List Nat)
    (hts : IsBytes ts) (hnonce : IsBytes nonce) :
    IsBytes (fernetSeal key ts nonce pt) := by
  rw [fernetSeal, isBytes_append, fernetBody, isBytes_cons, isBytes_append,
    isBytes_append]
  exact ⟨⟨by simp [fernetVersion], hts, hnonce, streamEnc_isBytes key nonce pt 0⟩,
    macTag_isBytes _ _⟩

theorem fernetSeal_headD (key ts nonce pt : List Nat) :
    (fernetSeal key ts nonce pt).headD 0 = fernetVersion := by
  simp [fernetSeal, fernetBody]

/-- The first `length - 32` bytes of a sealed token are its authenticated
body; the last 32 are its tag. -/
theorem fernetSeal_take_drop (key ts nonce pt : List Nat)
    (hkey : key.length = 32) (hts : ts.length = 8) (hnonce : nonce.length = 16) :
    (fernetSeal key ts nonce pt).take ((fernetSeal key ts nonce pt).length - 32) =
      fernetBody key ts nonce pt ∧
    (fernetSeal key ts nonce pt).drop ((fernetSeal key ts nonce pt).length - 32) =
      macTag key (fernetBody key ts nonce pt) := by
  have hblen := fernetBody_length key ts nonce pt hts hnonce
  have hlen := fernetSeal_length key ts nonce pt hkey hts hnonce
  have h3 : (fernetSeal key ts nonce pt).length - 32 =
      (fernetBody key ts nonce pt).length := by omega
  rw [h3]
  constructor
  · rw [fernetSeal, List.take_left]
  · rw [fernetSeal, List.drop_left]

/-- Round trip of the authenticated-cipher model: opening a sealed token
with the sealing key recovers the plaintext. -/
theorem fernetOpen_fernetSeal (key ts nonce pt : List Nat)
    (hkey : key.length = 32) (hts : ts.length = 8) (hnonce : nonce.length = 16)
    (hpt : IsBytes pt) :
    fernetOpen key (fernetSeal key ts nonce pt) = .ok pt := by
  have hlen := fernetSeal_length key ts nonce pt hkey hts hnonce
  obtain ⟨htake, hdrop⟩ := fernetSeal_take_drop key ts nonce pt hkey hts hnonce
  set ct := streamEnc key nonce 0 pt with hct
  have hctlen : ct.length = pt.length := streamEnc_length key nonce pt 0
  rw [fernetOpen]
  rw [if_neg (by omega), if_pos (fernetSeal_headD key ts nonce pt)]
  rw [htake, hdrop, if_pos rfl]
  have h4 : fernetSeal key ts nonce pt = (fernetVersion :: ts) ++
      (nonce ++ (ct ++ macTag key (fernetBody key ts nonce pt))) := by
    simp [fernetSeal, fernetBody, hct]
  have h5 : (fernetSeal key ts nonce pt).drop 9 =
      nonce ++ (ct ++ macTag key (fernetBody key ts nonce pt)) := by
    rw [h4]
    exact List.drop_left' (by simp [hts])
  have h6 : fernetSeal key ts nonce pt = ((fernetVersion :: ts) ++ nonce) ++
      (ct ++ macTag key (fernetBody key ts nonce pt)) := by
    simp [fernetSeal, fernetBody, hct]
  have h7 : (fernetSeal key ts nonce pt).drop 25 =
      ct ++ macTag key (fernetBody key ts nonce pt) := by
    rw [h6]
    exact List.drop_left' (by simp [hts, hnonce])
  rw [h5, h7, List.take_left' hnonce, hlen]
  have h8 : 57 + pt.length - 57 = ct.length := by omega
  rw [h8, List.take_left]
  rw [hct, streamDec_streamEnc key nonce pt 0 hpt]

theorem macTag_inj_key (msg : List Nat) (k1 k2 : List Nat)
    (h1 : IsBytes k1) (h2 : IsBytes k2)
    (h : macTag k1 msg = macTag k2 msg) : k1 = k2 := by
  induction k1 generalizing k2 with
  | nil =>
    cases k2 with
    | nil => rfl
    | cons b l => simp [macTag] at h
  | cons a l1 ih =>
    cases k2 with
    | nil => simp [macTag] at h
    | cons b l2 =>
      simp only [macTag, List.map_cons, List.cons.injEq] at h
      have ha : a < 256 := h1 a (by simp)
      have hb : b < 256 := h2 b (by simp)
      have hab : a = b := by omega
      have htail : l1 = l2 := by
        refine ih l2 (fun x hx => h1 x (List.mem_cons_of_mem _ hx))
          (fun x hx => h2 x (List.mem_cons_of_mem _ hx)) ?_
        simp [macTag, h.2]
      rw [hab, htail]

theorem macTag_ne_of_sum_ne (key m1 m2 : List Nat) (hk : key ≠ [])
    (h : (m1.sum + m1.length) % 256 ≠ (m2.sum + m2.length) % 256) :
    macTag key m1 ≠ macTag key m2 := by
  cases key with
  | nil => exact absurd rfl hk
  | cons b rest =>
    intro heq
    simp only [macTag, List.map_cons, List.cons.injEq] at heq
    omega

/-- Opening a token sealed under a different (valid, distinct) key fails
with `InvalidToken`: the tag stored in the token was computed under the
sealing key and cannot verify under any other key. -/
theorem fernetOpen_wrongKey (k1 k2 ts nonce pt : List Nat)
    (hk1 : k1.length = 32) (hk2 : k2.length = 32)
    (hb1 : IsBytes k1) (hb2 : IsBytes k2)
    (hts : ts.length = 8) (hnonce : nonce.length = 16)
    (hne : k1 ≠ k2) :
    fernetOpen k2 (fernetSeal k1 ts nonce pt) = .error .invalidToken := by
  have hlen := fernetSeal_length k1 ts nonce pt hk1 hts hnonce
  obtain ⟨htake, hdrop⟩ := fernetSeal_take_drop k1 ts nonce pt hk1 hts hnonce
  rw [fernetOpen]
  rw [if_neg (by omega), if_pos (fernetSeal_headD k1 ts nonce pt)]
  rw [htake, hdrop]
  rw [if_neg (fun heq => hne (macTag_inj_key _ k1 k2 hb1 hb2 heq.symm))]

/-- A token shorter than the minimum token length is malformed: opening it
fails with `InvalidToken` under every key. -/
theorem fernetOpen_tooShort (key tok : List Nat) (h : tok.length < 57) :
    fernetOpen key tok = .error .invalidToken := by
  rw [fernetOpen, if_pos h]

/-- A token whose version byte is not the format's version byte is
malformed: opening it fails with `InvalidToken` under every key. -/
theorem fernetOpen_badVersion (key tok : List Nat) (h : tok.headD 0 ≠ fernetVersion) :
    fernetOpen key tok = .error .invalidToken := by
  rw [fernetOpen]
  by_cases hl : tok.length < 57
  · rw [if_pos hl]
  · rw [if_neg hl, if_neg h]

theorem headD_append_of_ne_nil {a : List Nat} (b c : List Nat) (h : a ≠ []) :
    (a ++ b).headD 0 = (a ++ c).headD 0 := by
  cases a with
  | nil => exact absurd rfl h
  | cons p l => simp

/-- Tampering detection: replacing any single byte of a sealed token by a
different byte value makes opening fail with `InvalidToken` — whether the
flipped byte sits in the version byte, the authenticated body, or the
tag. -/
theorem fernetOpen_flipByte (key ts nonce pt pre suf : List Nat) (x y : Nat)
    (hkey : key.length = 32) (hts : ts.length = 8) (hnonce : nonce.length = 16)
    (htsB : IsBytes ts) (hnB : IsBytes nonce)
    (hsplit : fernetSeal key ts nonce pt = pre ++ x :: suf)
    (hxy : y ≠ x) (hyB : y < 256) :
    fernetOpen key (pre ++ y :: suf) = .error .invalidToken := by
  have hlen := fernetSeal_length key ts nonce pt hkey hts hnonce
  obtain ⟨htake, hdrop⟩ := fernetSeal_take_drop key ts nonce pt hkey hts hnonce
  have hxB : x < 256 := by
    have hv := fernetSeal_isBytes key ts nonce pt htsB hnB
    exact hv x (by rw [hsplit]; exact List.mem_append_right _ (by simp))
  have hlsplit : pre.length + 1 + suf.length = 57 + pt.length := by
    have hc := congrArg List.length hsplit
    simp [hlen] at hc
    omega
  by_cases hpre : pre = []
  · subst hpre
    have hx128 : x = fernetVersion := by
      have hh := fernetSeal_headD key ts nonce pt
      rw [hsplit] at hh
      simpa using hh
    apply fernetOpen_badVersion
    simpa [hx128] using hxy
  · have hknil : key ≠ [] := by
      intro h0; rw [h0] at hkey; simp at hkey
    have hver' : (pre ++ y :: suf).headD 0 = fernetVersion := by
      rw [headD_append_of_ne_nil (y :: suf) (x :: suf) hpre, ← hsplit]
      exact fernetSeal_headD key ts nonce pt
    have hm1 : 1 ≤ pre.length := List.length_pos.mpr hpre
    have hlen' : (pre ++ y :: suf).length = 57 + pt.length := by
      simp
      omega
    rw [fernetOpen, if_neg (by omega), if_pos hver']
    have hB' : (pre ++ y :: suf).length - 32 =
        (fernetSeal key ts nonce pt).length - 32 := by omega
    rw [hB']
    set B := (fernetSeal key ts nonce pt).length - 32 with hB
    have hBval : B = 25 + pt.length := by omega
    by_cases hcase : pre.length < B
    · -- flipped byte lies in the authenticated body: the recomputed tag
      -- differs from the stored tag because the byte sums differ mod 256
      have hBm : B - pre.length = (B - pre.length - 1) + 1 := by omega
      have htake_t' : (pre ++ y :: suf).take B =
          pre ++ (y :: suf.take (B - pre.length - 1)) := by
        rw [List.take_append_eq_append_take, List.take_of_length_le (by omega), hBm,
          List.take_succ_cons]
        simp
      have hdrop_t' : (pre ++ y :: suf).drop B = suf.drop (B - pre.length - 1) := by
        rw [List.drop_append_eq_append_drop, List.drop_eq_nil_of_le (by omega), hBm,
          List.drop_succ_cons]
        simp
      have hbodyEq : fernetBody key ts nonce pt =
          pre ++ (x :: suf.take (B - pre.length - 1)) := by
        rw [← htake, hsplit, List.take_append_eq_append_take,
          List.take_of_length_le (by omega), hBm, List.take_succ_cons]
        simp
      have htagEq : macTag key (fernetBody key ts nonce pt) =
          suf.drop (B - pre.length - 1) := by
        rw [← hdrop, hsplit, List.drop_append_eq_append_drop,
          List.drop_eq_nil_of_le (by omega), hBm, List.drop_succ_cons]
        simp
      rw [htake_t', hdrop_t']
      rw [if_neg]
      intro heq
      rw [← htagEq, hbodyEq] at heq
      refine macTag_ne_of_sum_ne key _ _ hknil ?_ heq
      simp only [List.sum_append, List.sum_cons, List.length_append,
        List.length_cons]
      omega
    · -- flipped byte lies in the stored tag: the recomputed tag equals the
      -- original stored tag, which differs from the tampered one
      have htake_t' : (pre ++ y :: suf).take B = pre.take B := by
        rw [List.take_append_eq_append_take]
        have h0 : B - pre.length = 0 := by omega
        simp [h0]
      have hbodyEq : fernetBody key ts nonce pt = pre.take B := by
        rw [← htake, hsplit, List.take_append_eq_append_take]
        have h0 : B - pre.length = 0 := by omega
        simp [h0]
      have hdrop_t' : (pre ++ y :: suf).drop B = pre.drop B ++ y :: suf := by
        rw [List.drop_append_eq_append_drop]
        have h0 : B - pre.length = 0 := by omega
        simp [h0]
      have htagEq : macTag key (fernetBody key ts nonce pt) =
          pre.drop B ++ x :: suf := by
        rw [← hdrop, hsplit, List.drop_append_eq_append_drop]
        have h0 : B - pre.length = 0 := by omega
        simp [h0]
      rw [htake_t', hdrop_t', ← hbodyEq]
      rw [if_neg]
      intro heq
      rw [htagEq] at heq
      have hinj := List.append_cancel_left heq
      simp at hinj
      exact hxy hinj.symm

/-! ## Model of AES-256-ECB on 256-bit blocks

`cryptography.hazmat` AES-256-ECB (as used by `BlockEncoder256`) is an
external library; it is modelled by an invertible, length-preserving keyed
byte transform. -/

/-- AES-256-ECB encryption model: position-wise keyed addition mod 256. -/
def aesEncBytes (key block : List Nat) : List Nat :=
  List.zipWith (fun b k => (b + k) % 256) block key

/-- AES-256-ECB decryption model: the inverse keyed transform. -/
def aesDecBytes (key block : List Nat) : List Nat :=
  List.zipWith (fun c k => (c + 256 - k % 256) % 256) block key

theorem aesEncBytes_length (key block : List Nat) :
    (aesEncBytes key block).length = min block.length key.length := by
  simp [aesEncBytes]

theorem aesDecBytes_length (key block : List Nat) :
    (aesDecBytes key block).length = min block.length key.length := by
  simp [aesDecBytes]

theorem aesDecBytes_aesEncBytes (key block : List Nat) (hb : IsBytes block)
    (hlen : block.length <= key.length) :
    aesDecBytes key (aesEncBytes key block) = block := by
  induction block generalizing key with
  | nil => simp [aesEncBytes, aesDecBytes]
  | cons b bs ih =>
    cases key with
    | nil => simp at hlen
    | cons k ks =>
      have hbB : b < 256 := hb b (by simp)
      have hbsB : IsBytes bs := fun x hx => hb x (List.mem_cons_of_mem _ hx)
      simp only [aesEncBytes, aesDecBytes, List.zipWith_cons_cons] at ih ⊢
      rw [ih ks hbsB (by simpa using hlen)]
      congr 1
      omega

/-! ## `BlockEncoder256` (src/base.py lines 354-396)

The Python class checks the key length at construction and the block
length at each call; here construction is `blockEncoderInit` and the two
methods take the (already validated) key as first argument. -/

/-- `BlockEncoder256.__init__`: requires exactly 32 bytes of key. -/
def blockEncoderInit (key256 : List Nat) : Except CodecError (List Nat) :=
  if key256.length != 32 then .error .invalidKeyLength else .ok key256

/-- `BlockEncoder256.EncryptBlock256`: requires exactly a 32-byte block. -/
def EncryptBlock256 (key256 plaintext256 : List Nat) : Except CodecError (List Nat) :=
  if plaintext256.length != 32 then .error .invalidBlockLength
  else .ok (aesEncBytes key256 plaintext256)

/-- `BlockEncoder256.DecryptBlock256`: requires exactly a 32-byte block. -/
def DecryptBlock256 (key256 ciphertext256 : List Nat) : Except CodecError (List Nat) :=
  if ciphertext256.length != 32 then .error .invalidBlockLength
  else .ok (aesDecBytes key256 ciphertext256)

/-! ## Hex codec (`bytes.fromhex` / `bytes.hex`)

`bytes.fromhex` accepts upper- and lower-case hex digits; `bytes.hex`
always emits lower-case digits. -/

/-- Value of one hex digit, accepting both cases (`0-9`, `a-f`, `A-F` by
code point); `none` if not a digit. -/
def hexDigitVal (c : Char) : Option Nat :=
  if 48 <= c.toNat && c.toNat <= 57 then some (c.toNat - 48)
  else if 97 <= c.toNat && c.toNat <= 102 then some (c.toNat - 87)
  else if 65 <= c.toNat && c.toNat <= 70 then some (c.toNat - 55)
  else none

/-- `bytes.fromhex` model: pairs of hex digits to bytes; `none` (a
`ValueError` in Python) on a non-digit or an odd number of digits. -/
def bytesFromHex : List Char -> Option (List Nat)
  | [] => some []
  | c1 :: c2 :: rest =>
    match hexDigitVal c1, hexDigitVal c2, bytesFromHex rest with
    | some hi, some lo, some bs => some ((hi * 16 + lo) :: bs)
    | _, _, _ => none
  | _ => none

/-- Lower-case hex digit character for a value `< 16`. -/
def hexDigitChar (d : Nat) : Char :=
  if d < 10 then Char.ofNat (48 + d) else Char.ofNat (87 + d)

/-- `bytes.hex` model: always lower-case. -/
def bytesToHex : List Nat -> List Char
  | [] => []
  | b :: bs => hexDigitChar (b / 16) :: hexDigitChar (b % 16) :: bytesToHex bs

/-- `BlockEncoder256.EncryptHexdigest256`: hex-decode, encrypt, hex-encode. -/
def EncryptHexdigest256 (key256 : List Nat) (plaintextHexdigest : List Char) :
    Except CodecError (List Char) :=
  match bytesFromHex plaintextHexdigest with
  | none => .error .attributeError
  | some bs => (EncryptBlock256 key256 bs).map bytesToHex

/-- `BlockEncoder256.DecryptHexdigest256`: hex-decode, decrypt, hex-encode. -/
def DecryptHexdigest256 (key256 : List Nat) (ciphertextHexdigest : List Char) :
    Except CodecError (List Char) :=
  match bytesFromHex ciphertextHexdigest with
  | none => .error .attributeError
  | some bs => (DecryptBlock256 key256 bs).map bytesToHex

/-- A character that `hexDigitVal` accepts. -/
def IsHexDigit (c : Char) : Prop := (hexDigitVal c).isSome

instance (c : Char) : Decidable (IsHexDigit c) := by
  unfold IsHexDigit; infer_instance

/-- A lower-case hex digit character (`0-9` or `a-f` by code point). -/
def IsLowerHexDigit (c : Char) : Prop :=
  (48 <= c.toNat ∧ c.toNat <= 57) ∨ (97 <= c.toNat ∧ c.toNat <= 102)

instance (c : Char) : Decidable (IsLowerHexDigit c) := by
  unfold IsLowerHexDigit; infer_instance

theorem hexDigitVal_lt (c : Char) (d : Nat) (h : hexDigitVal c = some d) : d < 16 := by
  unfold hexDigitVal at h
  split at h
  case isTrue h1 =>
    simp only [Option.some.injEq] at h
    simp only [Bool.and_eq_true, decide_eq_true_eq] at h1
    omega
  case isFalse =>
    split at h
    case isTrue h2 =>
      simp only [Option.some.injEq] at h
      simp only [Bool.and_eq_true, decide_eq_true_eq] at h2
      omega
    case isFalse =>
      split at h
      case isTrue h3 =>
        simp only [Option.some.injEq] at h
        simp only [Bool.and_eq_true, decide_eq_true_eq] at h3
        omega
      case isFalse => exact absurd h (by simp)

theorem hexDigitChar_isLower (d : Nat) (h : d < 16) : IsLowerHexDigit (hexDigitChar d) := by
  interval_cases d <;> decide

theorem bytesToHex_lower (bs : List Nat) (h : IsBytes bs) :
    ∀ c ∈ bytesToHex bs, IsLowerHexDigit c := by
  induction bs with
  | nil => intro c hc; simp [bytesToHex] at hc
  | cons b rest ih =>
    intro c hc
    have hb : b < 256 := h b (by simp)
    have hrest : IsBytes rest := fun x hx => h x (List.mem_cons_of_mem _ hx)
    simp only [bytesToHex, List.mem_cons] at hc
    rcases hc with h1 | h1 | h1
    · exact h1 ▸ hexDigitChar_isLower _ (by omega)
    · exact h1 ▸ hexDigitChar_isLower _ (by omega)
    · exact ih hrest c h1

theorem bytesToHex_length (bs : List Nat) : (bytesToHex bs).length = 2 * bs.length := by
  induction bs with
  | nil => simp [bytesToHex]
  | cons b rest ih => simp [bytesToHex, ih]; omega

theorem bytesFromHex_ok (s : List Char) (hhex : ∀ c ∈ s, IsHexDigit c)
    (heven : s.length % 2 = 0) :
    ∃ bs, bytesFromHex s = some bs ∧ bs.length = s.length / 2 ∧ IsBytes bs := by
  match s with
  | [] => exact ⟨[], by simp [bytesFromHex], by simp, isBytes_nil⟩
  | [c] => simp at heven
  | c1 :: c2 :: rest =>
    have h1 : IsHexDigit c1 := hhex c1 (by simp)
    have h2 : IsHexDigit c2 := hhex c2 (by simp)
    obtain ⟨d1, hd1⟩ := Option.isSome_iff_exists.mp h1
    obtain ⟨d2, hd2⟩ := Option.isSome_iff_exists.mp h2
    have hrest : ∀ c ∈ rest, IsHexDigit c :=
      fun c hc => hhex c (by simp [hc])
    have hreven : rest.length % 2 = 0 := by simp at heven; omega
    obtain ⟨bs, hbs, hlen, hB⟩ := bytesFromHex_ok rest hrest hreven
    refine ⟨(d1 * 16 + d2) :: bs, ?_, ?_, ?_⟩
    · simp [bytesFromHex, hd1, hd2, hbs]
    · simp [hlen]; omega
    · rw [isBytes_cons]
      have := hexDigitVal_lt c1 d1 hd1
      have := hexDigitVal_lt c2 d2 hd2
      exact ⟨by omega, hB⟩

/-! ## `DeriveKeyFromStaticPassword` (src/base.py lines 306-341)

The guard (`if not str_password or not str_password.strip(): raise`) is
translated exactly; the post-guard derivation pipeline
(`PBKDF2HMAC(SHA-256, length=32, fixed salt, 1745202 iterations).derive`
followed by `base64.urlsafe_b64encode`) is an external-library computation
and is abstracted as a `kdf` parameter, which makes "the failure is raised
before any key-derivation work" a provable statement: the guarded error is
the same for every `kdf`. -/

/-- Python `str.strip()` whitespace (the ASCII whitespace characters). -/
def isSpaceChar (c : Char) : Bool :=
  c == ' ' || c == '\t' || c == '\n' || c == '\r' ||
    c == Char.ofNat 11 || c == Char.ofNat 12

/-- `DeriveKeyFromStaticPassword`, parametric in the derivation pipeline.
`none` models Python `None` (which is falsy, so it is also rejected). -/
def DeriveKeyFromStaticPassword (kdf : List Char -> List Nat)
    (strPassword : Option (List Char)) : Except CodecError (List Nat) :=
  match strPassword with
  | none => .error .emptyPassword
  | some s =>
    if s.isEmpty || (s.filter (fun c => !isSpaceChar c)).isEmpty then
      .error .emptyPassword
    else .ok (kdf s)

/-! ## `HumanizedBytes` (src/base.py lines 145-164)

The Python function formats `inp_sz / 1024.0 ** k` with `"%0.2f"`.  The
model computes the same quantity in exact rational arithmetic rounded
half-to-even to two decimals (the rounding Python's float formatting
applies to the represented value). -/

/-- Decimal digit character. -/
def decDigitChar (d : Nat) : Char := Char.ofNat (48 + d)

/-- Decimal digits of a natural, most significant first (fuel-bounded
structural recursion so that concrete values reduce in the kernel). -/
def natDigits : Nat -> Nat -> List Char
  | 0, _ => []
  | fuel + 1, n =>
    if n < 10 then [decDigitChar n]
    else natDigits fuel (n / 10) ++ [decDigitChar (n % 10)]

/-- Decimal string of a natural. -/
def natToChars (n : Nat) : List Char := natDigits (n + 1) n

/-- Round `num / den` half-to-even to the nearest integer (`den > 0`). -/
def roundHalfEven (num den : Nat) : Nat :=
  let q := num / den
  let r := num % den
  if 2 * r < den then q
  else if den < 2 * r then q + 1
  else if q % 2 = 0 then q else q + 1

/-- `"%0.2f"`-style rendering of a value given in hundredths. -/
def twoDecimals (hundredths : Nat) : List Char :=
  natToChars (hundredths / 100) ++
    ('.' :: [decDigitChar (hundredths % 100 / 10), decDigitChar (hundredths % 100 % 10)])

/-- `HumanizedBytes`: binary-prefixed human-readable byte sizes, negative
input rejected (Python raises `AttributeError`). -/
def HumanizedBytes (inpSz : Int) : Except CodecError String :=
  if inpSz < 0 then .error .attributeError
  else
    let n := inpSz.toNat
    if n < 1024 then .ok (String.mk (natToChars n ++ ['b']))
    else if n < 1024 * 1024 then
      .ok (String.mk (twoDecimals (roundHalfEven (n * 100) 1024) ++ ['k', 'b']))
    else if n < 1024 * 1024 * 1024 then
      .ok (String.mk (twoDecimals (roundHalfEven (n * 100) (1024 * 1024)) ++ ['M', 'b']))
    else if n < 1024 * 1024 * 1024 * 1024 then
      .ok (String.mk
        (twoDecimals (roundHalfEven (n * 100) (1024 * 1024 * 1024)) ++ ['G', 'b']))
    else
      .ok (String.mk
        (twoDecimals (roundHalfEven (n * 100) (1024 * 1024 * 1024 * 1024)) ++ ['T', 'b']))

/-! ## `Encrypt` / `Decrypt` wrappers (src/base.py lines 344-351)

`Encrypt(plaintext, key)` is `bin_fernet.BinaryFernet(key).encrypt(plaintext)`;
the fresh timestamp/nonce drawn inside the Fernet implementation are
explicit arguments of the pure model. -/

/-- `base.Encrypt`. -/
def Encrypt (plaintext key ts nonce : List Nat) : List Nat :=
  fernetSeal key ts nonce plaintext

/-- `base.Decrypt`. -/
def Decrypt (ciphertext key : List Nat) : Except CodecError (List Nat) :=
  fernetOpen key ciphertext

/-! ## `BinSerialize` / `BinDeSerialize` (src/base.py lines 399-490)

The filesystem is a partial map from paths to byte contents; the write
side of `BinSerialize` is parametric in a `writer` so that an arbitrary
I/O failure can be expressed, and the pure overwrite semantics of a
successful write is `fsWrite`. -/

/-- In-memory pipeline of `BinSerialize`: serialize, compress if asked,
encrypt if a key is given (lines 418-426). -/
def binSerializeData (obj : PyObj) (compress : Bool) (key : Option (List Nat))
    (ts nonce : List Nat) : List Nat :=
  let sObj := pickleDumps obj
  let cObj := if compress then bz2Compress sObj else sObj
  let eObj := match key with
    | none => cObj
    | some k => Encrypt cObj k ts nonce
  eObj

/-- `BinSerialize` (lines 399-439): build the blob, optionally write it to
`file_path`, return the blob.  A `writer` failure propagates (the Python
`open`/`write` at lines 436-437 is not wrapped in any handler). -/
def BinSerialize (writer : List Char -> List Nat -> Except CodecError Unit)
    (obj : PyObj) (filePath : Option (List Char)) (compress : Bool)
    (key : Option (List Nat)) (ts nonce : List Nat) :
    Except CodecError (List Nat) :=
  let eObj := binSerializeData obj compress key ts nonce
  match filePath with
  | none => .ok eObj
  | some p =>
    match writer p eObj with
    | .error e => .error e
    | .ok _ => .ok eObj

/-- Overwrite semantics of a successful disk write (`open(path, 'wb')`). -/
def fsWrite (fs : List Char -> Option (List Nat)) (p : List Char)
    (data : List Nat) : List Char -> Option (List Nat) :=
  fun q => if q = p then some data else fs q

/-- In-memory pipeline of `BinDeSerialize`: decrypt if a key is given,
decompress if asked, deserialize (lines 475-483). -/
def binDeSerializeData (data : List Nat) (compress : Bool)
    (key : Option (List Nat)) : Except CodecError PyObj :=
  match (match key with | none => Except.ok data | some k => Decrypt data k) with
  | .error e => .error e
  | .ok cObj =>
    match (if compress then bz2Decompress cObj else some cObj) with
    | none => .error .decompressError
    | some sObj =>
      match pickleLoads sObj with
      | none => .error .deserializeError
      | some obj => .ok obj

/-- `BinDeSerialize` (lines 442-490): if `file_path` is given, `data` is
ignored and a missing path is a `NotFound` failure; with neither input the
result is `none` (the documented no-op); otherwise the inverse pipeline
runs on the chosen bytes. -/
def BinDeSerialize (fs : List Char -> Option (List Nat))
    (data : Option (List Nat)) (filePath : Option (List Char))
    (compress : Bool) (key : Option (List Nat)) :
    Except CodecError (Option PyObj) :=
  match filePath with
  | none =>
    match data with
    | none => .ok none
    | some d =>
      match binDeSerializeData d compress key with
      | .error e => .error e
      | .ok obj => .ok (some obj)
  | some p =>
    match fs p with
    | none => .error .notFound
    | some eObj =>
      match binDeSerializeData eObj compress key with
      | .error e => .error e
      | .ok obj => .ok (some obj)

/-! ## Pipeline stages in the specification's wording

Section 4.4 describes `Encode` as the fixed-order composition
encrypt-after-compress-after-serialize with each stage enabled by its
flag, and `Decode` as the mirrored inverse composition.  These stage
functions are written from the spec's words, to be compared with the
source-translated `binSerializeData` / `binDeSerializeData`. -/

/-- Spec Encode step 2: compress iff the flag is set, else pass through. -/
def compressStage (compress : Bool) (b : List Nat) : List Nat :=
  if compress then bz2Compress b else b

/-- Spec Encode step 3: seal iff a key is given, else pass through. -/
def encryptStage (key : Option (List Nat)) (ts nonce : List Nat)
    (b : List Nat) : List Nat :=
  match key with
  | none => b
  | some k => Encrypt b k ts nonce

/-- Spec Decode stage 1: decrypt iff a key is given, else pass through. -/
def decryptStage (key : Option (List Nat)) (b : List Nat) :
    Except CodecError (List Nat) :=
  match key with
  | none => .ok b
  | some k => Decrypt b k

/-- Spec Decode stage 2: decompress iff the flag is set. -/
def decompressStage (compress : Bool) (b : List Nat) :
    Except CodecError (List Nat) :=
  match (if compress then bz2Decompress b else some b) with
  | none => .error .decompressError
  | some sObj => .ok sObj

/-- Spec Decode stage 3: deserialize. -/
def deserializeStage (b : List Nat) : Except CodecError PyObj :=
  match pickleLoads b with
  | none => .error .deserializeError
  | some obj => .ok obj

theorem aesEncBytes_isBytes (key block : List Nat) : IsBytes (aesEncBytes key block) := by
  induction block generalizing key with
  | nil => simp [aesEncBytes, isBytes_nil]
  | cons b bs ih =>
    cases key with
    | nil => simp [aesEncBytes, isBytes_nil]
    | cons k ks =>
      simp only [aesEncBytes, List.zipWith_cons_cons, isBytes_cons]
      exact ⟨Nat.mod_lt _ (by omega), ih ks⟩

theorem aesDecBytes_isBytes (key block : List Nat) : IsBytes (aesDecBytes key block) := by
  induction block generalizing key with
  | nil => simp [aesDecBytes, isBytes_nil]
  | cons b bs ih =>
    cases key with
    | nil => simp [aesDecBytes, isBytes_nil]
    | cons k ks =>
      simp only [aesDecBytes, List.zipWith_cons_cons, isBytes_cons]
      exact ⟨Nat.mod_lt _ (by omega), ih ks⟩

/-- Inverse-pipeline round trip on the in-memory data path, for every
value, compress flag, and (absent or valid 32-byte) key. -/
theorem binDeSerializeData_binSerializeData (v : PyObj) (c : Bool)
    (key : Option (List Nat)) (ts nonce : List Nat)
    (hkey : ∀ k, key = some k → k.length = 32)
    (hts : ts.length = 8) (hnonce : nonce.length = 16) :
    binDeSerializeData (binSerializeData v c key ts nonce) c key = .ok v := by
  have hsB : IsBytes (pickleDumps v) := pickleDumps_isBytes v
  have hcB : IsBytes (if c then bz2Compress (pickleDumps v) else pickleDumps v) := by
    cases c
    · simpa using hsB
    · simpa using bz2Compress_isBytes _ hsB
  cases key with
  | none =>
    cases c with
    | true =>
      simp [binSerializeData, binDeSerializeData, bz2Decompress_bz2Compress,
        pickleLoads_pickleDumps]
    | false =>
      simp [binSerializeData, binDeSerializeData, pickleLoads_pickleDumps]
  | some k =>
    have hk := hkey k rfl
    cases c with
    | true =>
      simp only [binSerializeData, binDeSerializeData, Encrypt, Decrypt]
      rw [fernetOpen_fernetSeal k ts nonce _ hk hts hnonce (by simpa using hcB)]
      simp [bz2Decompress_bz2Compress, pickleLoads_pickleDumps]
    | false =>
      simp only [binSerializeData, binDeSerializeData, Encrypt, Decrypt]
      rw [fernetOpen_fernetSeal k ts nonce _ hk hts hnonce (by simpa using hcB)]
      simp [pickleLoads_pickleDumps]

/-- `binSerializeData` is literally the spec's fixed-order composition. -/
theorem binSerializeData_stages (v : PyObj) (c : Bool) (key : Option (List Nat))
    (ts nonce : List Nat) :
    binSerializeData v c key ts nonce =
      encryptStage key ts nonce (compressStage c (pickleDumps v)) := by
  cases key <;> rfl

/-- `binDeSerializeData` is the reverse composition of the inverse stages. -/
theorem binDeSerializeData_stages (data : List Nat) (c : Bool)
    (key : Option (List Nat)) :
    binDeSerializeData data c key =
      ((decryptStage key data).bind fun cObj =>
        (decompressStage c cObj).bind fun sObj => deserializeStage sObj) := by
  cases key with
  | none =>
    simp only [binDeSerializeData, decryptStage, Except.bind, decompressStage]
    cases h2 : (if c then bz2Decompress data else some data) with
    | none => rfl
    | some sObj =>
      simp only [deserializeStage]
  | some k =>
    simp only [binDeSerializeData, decryptStage, Except.bind]
    cases hd : Decrypt data k with
    | error e => rfl
    | ok cObj =>
      simp only [decompressStage]
      cases h2 : (if c then bz2Decompress cObj else some cObj) with
      | none => rfl
      | some sObj =>
        simp only [deserializeStage]

theorem decryptStage_encryptStage (key : Option (List Nat)) (ts nonce b : List Nat)
    (hkey : ∀ k, key = some k → k.length = 32)
    (hts : ts.length = 8) (hnonce : nonce.length = 16) (hb : IsBytes b) :
    decryptStage key (encryptStage key ts nonce b) = .ok b := by
  cases key with
  | none => rfl
  | some k =>
    simp only [decryptStage, encryptStage, Encrypt, Decrypt]
    exact fernetOpen_fernetSeal k ts nonce b (hkey k rfl) hts hnonce hb

theorem decompressStage_compressStage (c : Bool) (b : List Nat) :
    decompressStage c (compressStage c b) = .ok b := by
  cases c with
  | true => simp [decompressStage, compressStage, bz2Decompress_bz2Compress]
  | false => rfl

theorem deserializeStage_pickleDumps (v : PyObj) :
    deserializeStage (pickleDumps v) = .ok v := by
  simp [deserializeStage, pickleLoads_pickleDumps]

/-! ## Claim theorems -/

/-- C1: for every picklable value `v`, every compress flag `c`, and every
key that is absent or valid 32-byte key material,
`BinDeSerialize(BinSerialize(v, compress=c, key=k), compress=c, key=k)`
equals `v`.  `BinSerialize` with no destination returns the blob, and
feeding that blob back through `BinDeSerialize` recovers the value. -/
theorem claim_C1_roundtrip (v : PyObj) (c : Bool) (key : Option (List Nat))
    (ts nonce : List Nat) (fs : List Char -> Option (List Nat))
    (writer : List Char -> List Nat -> Except CodecError Unit)
    (hkey : ∀ k, key = some k → k.length = 32)
    (hts : ts.length = 8) (hnonce : nonce.length = 16) :
    BinSerialize writer v none c key ts nonce =
      .ok (binSerializeData v c key ts nonce) ∧
    BinDeSerialize fs (some (binSerializeData v c key ts nonce)) none c key =
      .ok (some v) := by
  refine ⟨rfl, ?_⟩
  simp only [BinDeSerialize]
  rw [binDeSerializeData_binSerializeData v c key ts nonce hkey hts hnonce]

theorem claim_C1_roundtrip_witness :
    BinDeSerialize (fun _ => none)
      (some (binSerializeData (.pyList [.pyInt 1]) true (some (List.replicate 32 7))
        (List.replicate 8 0) (List.replicate 16 3)))
      none true (some (List.replicate 32 7)) = .ok (some (.pyList [.pyInt 1])) :=
  (claim_C1_roundtrip (.pyList [.pyInt 1]) true (some (List.replicate 32 7))
    (List.replicate 8 0) (List.replicate 16 3) (fun _ => none) (fun _ _ => .ok ())
    (fun k hk => by injection hk with h; subst h; decide)
    (by decide) (by decide)).2

/-- C2: `BinSerialize` is the fixed-order composition
encrypt-if-keyed ∘ compress-if-asked ∘ serialize, and `BinDeSerialize`
is exactly the reverse composition decrypt-if-keyed, then
decompress-if-asked, then deserialize — and each decoding stage inverts
the matching encoding stage. -/
theorem claim_C2_pipeline (v : PyObj) (data : List Nat) (c : Bool)
    (key : Option (List Nat)) (ts nonce : List Nat) :
    binSerializeData v c key ts nonce =
      encryptStage key ts nonce (compressStage c (pickleDumps v)) ∧
    binDeSerializeData data c key =
      ((decryptStage key data).bind fun cObj =>
        (decompressStage c cObj).bind fun sObj => deserializeStage sObj) ∧
    ((∀ k, key = some k → k.length = 32) → ts.length = 8 → nonce.length = 16 →
      ∀ b, IsBytes b → decryptStage key (encryptStage key ts nonce b) = .ok b) ∧
    (∀ b, decompressStage c (compressStage c b) = .ok b) ∧
    deserializeStage (pickleDumps v) = .ok v :=
  ⟨binSerializeData_stages v c key ts nonce,
   binDeSerializeData_stages data c key,
   fun hk h8 h16 b hb => decryptStage_encryptStage key ts nonce b hk h8 h16 hb,
   fun b => decompressStage_compressStage c b,
   deserializeStage_pickleDumps v⟩

theorem claim_C2_pipeline_witness :
    decryptStage (some (List.replicate 32 7))
      (encryptStage (some (List.replicate 32 7)) (List.replicate 8 0)
        (List.replicate 16 3) [9]) = .ok [9] :=
  (claim_C2_pipeline .pyNone [] true (some (List.replicate 32 7))
    (List.replicate 8 0) (List.replicate 16 3)).2.2.1
    (fun k hk => by injection hk with h; subst h; decide)
    (by decide) (by decide) [9] (by decide)

/-- C3, amended: decrypting a token under a valid key distinct from the
sealing key fails with `InvalidToken`; so does a malformed token — one
shorter than the 57-byte minimum or one whose leading byte is not the
version byte — and a tampered token in which any single byte has been
replaced by a different value.  In every failing case the result is the
bare `InvalidToken` error, which carries no plaintext.  The original
claim further asserted that every truncated token fails; that is false of
this scheme shape: trailing truncation that leaves at least 57 bytes and
the version byte can verify for suitably chosen plaintexts and then
releases a prefix of the plaintext (see the counterexample), so only the
malformed/truncated-below-minimum and wrong-leading-byte cases are
guaranteed. -/
theorem claim_C3_invalid_token :
    (∀ k1 k2 ts nonce pt, k1.length = 32 → k2.length = 32 →
      IsBytes k1 → IsBytes k2 → ts.length = 8 → nonce.length = 16 → k1 ≠ k2 →
      Decrypt (Encrypt pt k1 ts nonce) k2 = .error .invalidToken) ∧
    (∀ key tok, tok.length < 57 → Decrypt tok key = .error .invalidToken) ∧
    (∀ key tok, tok.headD 0 ≠ fernetVersion → Decrypt tok key = .error .invalidToken) ∧
    (∀ key ts nonce pt pre suf x y, key.length = 32 → ts.length = 8 →
      nonce.length = 16 → IsBytes ts → IsBytes nonce →
      Encrypt pt key ts nonce = pre ++ x :: suf → y ≠ x → y < 256 →
      Decrypt (pre ++ y :: suf) key = .error .invalidToken) := by
  refine ⟨?_, ?_, ?_, ?_⟩
  · intro k1 k2 ts nonce pt h1 h2 hb1 hb2 hts hn hne
    exact fernetOpen_wrongKey k1 k2 ts nonce pt h1 h2 hb1 hb2 hts hn hne
  · intro key tok h
    exact fernetOpen_tooShort key tok h
  · intro key tok h
    exact fernetOpen_badVersion key tok h
  · intro key ts nonce pt pre suf x y hk hts hn htB hnB hsplit hxy hyB
    exact fernetOpen_flipByte key ts nonce pt pre suf x y hk hts hn htB hnB
      hsplit hxy hyB

theorem claim_C3_invalid_token_witness :
    Decrypt (Encrypt [5] (List.replicate 32 0) (List.replicate 8 0)
        (List.replicate 16 0)) (List.replicate 31 0 ++ [1]) =
      .error .invalidToken ∧
    Decrypt [0, 1, 2] (List.replicate 32 0) = .error .invalidToken :=
  ⟨claim_C3_invalid_token.1 (List.replicate 32 0) (List.replicate 31 0 ++ [1])
      (List.replicate 8 0) (List.replicate 16 0) [5] (by decide) (by decide)
      (by decide) (by decide) (by decide) (by decide) (by decide),
   claim_C3_invalid_token.2.1 (List.replicate 32 0) [0, 1, 2] (by decide)⟩

/-- C3 counterexample to the claim as frozen: the 59-byte token sealing
the plaintext `[101, 254]` under the all-zero 32-byte key, truncated by
its last byte to 58 bytes (at least the 57-byte minimum, version byte
intact), still verifies and opens to `[101]` — a proper prefix of the
plaintext — instead of failing with `InvalidToken`.  So "a truncated
token fails with `InvalidToken` and no partial plaintext is ever
released" is false of the modelled scheme as stated. -/
theorem claim_C3_counterexample :
    (Encrypt [101, 254] (List.replicate 32 0) (List.replicate 8 0)
      (List.replicate 16 0)).length = 59 ∧
    Decrypt ((Encrypt [101, 254] (List.replicate 32 0) (List.replicate 8 0)
      (List.replicate 16 0)).take 58) (List.replicate 32 0) = .ok [101] ∧
    (Except.ok [101] : Except CodecError (List Nat)) ≠ .error .invalidToken ∧
    [101] = [101, 254].take 1 ∧ [101] ≠ [101, 254] := by
  refine ⟨rfl, rfl, fun h => Except.noConfusion h, by decide, by decide⟩

/-- C4: with a file path, the in-memory `data` argument is ignored and a
missing path is a `NotFound` failure (a constructor distinct from every
corruption error); with neither path nor data the result is `none` rather
than a failure. -/
theorem claim_C4_deserialize_inputs :
    (∀ fs data p c key, fs p = none →
      BinDeSerialize fs data (some p) c key = .error .notFound) ∧
    (∀ fs d1 d2 p c key,
      BinDeSerialize fs d1 (some p) c key = BinDeSerialize fs d2 (some p) c key) ∧
    (∀ fs c key, BinDeSerialize fs none none c key = .ok none) ∧
    (CodecError.notFound ≠ .invalidToken ∧ CodecError.notFound ≠ .decompressError ∧
      CodecError.notFound ≠ .deserializeError) := by
  refine ⟨?_, ?_, ?_, by decide, by decide, by decide⟩
  · intro fs data p c key h
    simp [BinDeSerialize, h]
  · intro fs d1 d2 p c key
    rfl
  · intro fs c key
    rfl

theorem claim_C4_deserialize_inputs_witness :
    BinDeSerialize (fun _ => none) (some [1, 2, 3]) (some ['a']) true none =
      .error .notFound :=
  claim_C4_deserialize_inputs.1 (fun _ => none) (some [1, 2, 3]) ['a'] true none rfl

/-- C5: with a destination path, `BinSerialize` hands the blob to the
writer; a writer failure propagates unchanged to the caller (never
swallowed), a successful write still returns the blob, and the pure
overwrite semantics replaces whatever was previously stored at the path
while leaving other paths untouched. -/
theorem claim_C5_write_through :
    (∀ writer v p c key ts nonce e,
      writer p (binSerializeData v c key ts nonce) = .error e →
      BinSerialize writer v (some p) c key ts nonce = .error e) ∧
    (∀ writer v p c key ts nonce,
      writer p (binSerializeData v c key ts nonce) = .ok () →
      BinSerialize writer v (some p) c key ts nonce =
        .ok (binSerializeData v c key ts nonce)) ∧
    (∀ fs p data, fsWrite fs p data p = some data) ∧
    (∀ fs p data q, q ≠ p → fsWrite fs p data q = fs q) := by
  refine ⟨?_, ?_, ?_, ?_⟩
  · intro writer v p c key ts nonce e h
    simp [BinSerialize, h]
  · intro writer v p c key ts nonce h
    simp [BinSerialize, h]
  · intro fs p data
    simp [fsWrite]
  · intro fs p data q h
    simp [fsWrite, h]

theorem claim_C5_write_through_witness :
    BinSerialize (fun _ _ => .error (.ioError 13)) .pyNone (some ['p'])
      false none [] [] = .error (.ioError 13) :=
  claim_C5_write_through.1 (fun _ _ => .error (.ioError 13)) .pyNone ['p']
    false none [] [] (.ioError 13) rfl

/-- C7: a null, empty, or whitespace-only password fails with the
`EmptyPassword` condition; the quantification over every `kdf` expresses
that the failure is decided by the guard alone, before any key-derivation
work contributes to the result. -/
theorem claim_C7_empty_password (kdf : List Char -> List Nat)
    (pw : Option (List Char))
    (h : pw = none ∨ ∃ s, pw = some s ∧ s.all isSpaceChar) :
    DeriveKeyFromStaticPassword kdf pw = .error .emptyPassword := by
  rcases h with rfl | ⟨s, rfl, hs⟩
  · rfl
  · simp only [DeriveKeyFromStaticPassword]
    have hf : (s.filter (fun c => !isSpaceChar c)).isEmpty = true := by
      rw [List.isEmpty_iff, List.filter_eq_nil_iff]
      intro a ha
      have hsp := List.all_eq_true.mp hs a ha
      simp [hsp]
    rw [if_pos (by simp [hf])]

theorem claim_C7_empty_password_witness :
    DeriveKeyFromStaticPassword (fun _ => []) (some [' ', '\n']) =
      .error .emptyPassword :=
  claim_C7_empty_password (fun _ => []) (some [' ', '\n'])
    (Or.inr ⟨[' ', '\n'], rfl, by decide⟩)

/-- C8: `BlockEncoder256` construction rejects every key that is not
exactly 32 bytes with `InvalidKeyLength` and accepts a 32-byte key;
`EncryptBlock256`/`DecryptBlock256` reject every block that is not exactly
32 bytes with `InvalidBlockLength`, and on 32-byte inputs succeed with
exactly 32 bytes of output. -/
theorem claim_C8_block_guards :
    (∀ k, k.length ≠ 32 → blockEncoderInit k = .error .invalidKeyLength) ∧
    (∀ k, k.length = 32 → blockEncoderInit k = .ok k) ∧
    (∀ k pt, pt.length ≠ 32 → EncryptBlock256 k pt = .error .invalidBlockLength) ∧
    (∀ k ct, ct.length ≠ 32 → DecryptBlock256 k ct = .error .invalidBlockLength) ∧
    (∀ k pt, k.length = 32 → pt.length = 32 →
      EncryptBlock256 k pt = .ok (aesEncBytes k pt) ∧
        (aesEncBytes k pt).length = 32) ∧
    (∀ k ct, k.length = 32 → ct.length = 32 →
      DecryptBlock256 k ct = .ok (aesDecBytes k ct) ∧
        (aesDecBytes k ct).length = 32) := by
  refine ⟨?_, ?_, ?_, ?_, ?_, ?_⟩
  · intro k h
    simp [blockEncoderInit, h]
  · intro k h
    simp [blockEncoderInit, h]
  · intro k pt h
    simp [EncryptBlock256, h]
  · intro k ct h
    simp [DecryptBlock256, h]
  · intro k pt hk hp
    exact ⟨by simp [EncryptBlock256, hp], by rw [aesEncBytes_length, hk, hp]; simp⟩
  · intro k ct hk hc
    exact ⟨by simp [DecryptBlock256, hc], by rw [aesDecBytes_length, hk, hc]; simp⟩

theorem claim_C8_block_guards_witness :
    blockEncoderInit [1, 2, 3] = .error .invalidKeyLength ∧
    EncryptBlock256 (List.replicate 32 0) (List.replicate 32 5) =
      .ok (aesEncBytes (List.replicate 32 0) (List.replicate 32 5)) :=
  ⟨claim_C8_block_guards.1 [1, 2, 3] (by decide),
   (claim_C8_block_guards.2.2.2.2.1 (List.replicate 32 0) (List.replicate 32 5)
      (by decide) (by decide)).1⟩

/-- C9: `HumanizedBytes` maps 0 to "0b", 1023 to "1023b", 1024 to
"1.00kb", and fails for every negative input. -/
theorem claim_C9_humanized_bytes :
    HumanizedBytes 0 = .ok "0b" ∧ HumanizedBytes 1023 = .ok "1023b" ∧
    HumanizedBytes 1024 = .ok "1.00kb" ∧
    (∀ n : Int, n < 0 → HumanizedBytes n = .error .attributeError) := by
  refine ⟨rfl, rfl, rfl, ?_⟩
  intro n h
  rw [HumanizedBytes, if_pos h]

theorem claim_C9_humanized_bytes_witness :
    HumanizedBytes (-5) = .error .attributeError :=
  claim_C9_humanized_bytes.2.2.2 (-5) (by decide)

/-- C10: on a 64-hex-digit input (upper- or lower-case),
`EncryptHexdigest256` is `EncryptBlock256` composed with the hex codec
(decode, transform, lowercase re-encode), `DecryptHexdigest256` likewise
with `DecryptBlock256`, and both outputs are 64 characters consisting only
of lowercase hex digits. -/
theorem claim_C10_hexdigest (key256 : List Nat) (hexdigest : List Char)
    (hk : key256.length = 32) (hlen : hexdigest.length = 64)
    (hhex : ∀ c ∈ hexdigest, IsHexDigit c) :
    ∃ bs, bytesFromHex hexdigest = some bs ∧
      EncryptHexdigest256 key256 hexdigest =
        .ok (bytesToHex (aesEncBytes key256 bs)) ∧
      DecryptHexdigest256 key256 hexdigest =
        .ok (bytesToHex (aesDecBytes key256 bs)) ∧
      (bytesToHex (aesEncBytes key256 bs)).length = 64 ∧
      (bytesToHex (aesDecBytes key256 bs)).length = 64 ∧
      (∀ c ∈ bytesToHex (aesEncBytes key256 bs), IsLowerHexDigit c) ∧
      (∀ c ∈ bytesToHex (aesDecBytes key256 bs), IsLowerHexDigit c) := by
  obtain ⟨bs, hbs, hbslen, hbsB⟩ := bytesFromHex_ok hexdigest hhex (by omega)
  have h32 : bs.length = 32 := by omega
  refine ⟨bs, hbs, ?_, ?_, ?_, ?_, ?_, ?_⟩
  · simp [EncryptHexdigest256, hbs, EncryptBlock256, h32, Except.map]
  · simp [DecryptHexdigest256, hbs, DecryptBlock256, h32, Except.map]
  · rw [bytesToHex_length, aesEncBytes_length, hk, h32]; simp
  · rw [bytesToHex_length, aesDecBytes_length, hk, h32]; simp
  · exact bytesToHex_lower _ (aesEncBytes_isBytes key256 bs)
  · exact bytesToHex_lower _ (aesDecBytes_isBytes key256 bs)

theorem claim_C10_hexdigest_witness :
    ∃ bs, bytesFromHex (List.replicate 64 'A') = some bs ∧
      EncryptHexdigest256 (List.replicate 32 9) (List.replicate 64 'A') =
        .ok (bytesToHex (aesEncBytes (List.replicate 32 9) bs)) ∧
      DecryptHexdigest256 (List.replicate 32 9) (List.replicate 64 'A') =
        .ok (bytesToHex (aesDecBytes (List.replicate 32 9) bs)) ∧
      (bytesToHex (aesEncBytes (List.replicate 32 9) bs)).length = 64 ∧
      (bytesToHex (aesDecBytes (List.replicate 32 9) bs)).length = 64 ∧
      (∀ c ∈ bytesToHex (aesEncBytes (List.replicate 32 9) bs), IsLowerHexDigit c) ∧
      (∀ c ∈ bytesToHex (aesDecBytes (List.replicate 32 9) bs), IsLowerHexDigit c) :=
  claim_C10_hexdigest (List.replicate 32 9) (List.replicate 64 'A')
    (by decide) (by decide) (by decide)

end Baselib
